import Mathlib

/-!
Shallow embedding of the hybrid retrieval engine of `src/api/main.py`
(HH RAG API).  The pure text utilities (`normalize_ws`, `extract_tech_terms`,
`highlight`, and the evidence-formatting step of the `search` endpoint) are
modelled as functions on `List Char` / `String`.  The SQL retrieval pipeline
(`SQL_V2_WITH_TRGM` / `SQL_V2_NO_TRGM` together with the Python
post-processing in `retrieve_vacancies`) is modelled as a deterministic
in-memory pipeline over a candidate pool that carries the storage
collaborator's two similarity primitives (semantic distance, trigram
similarity) as data.  Scores are rationals.  Where PostgreSQL leaves an
order unspecified (rows comparing equal under an ORDER BY key), the model
fixes the stable order of the input stream.
-/

namespace HHRag

/-- Python `re` word character (`\w`), restricted to the ASCII range used by
the technology patterns and the concrete texts of interest. -/
def isWordChar (c : Char) : Bool := c.isAlphanum || c == '_'

/-- Word-character test on an optional character; a position outside the
subject counts as non-word, matching the semantics of the `\b` anchor at the
ends of the subject string. -/
def isWordO : Option Char → Bool
  | none => false
  | some c => isWordChar c

/-- ASCII lowercasing of a character list, modelling `str.lower()` and the
`re.IGNORECASE` flag on the ASCII texts concerned. -/
def lowerL (l : List Char) : List Char := l.map Char.toLower

/-- Does the literal pattern `pat` match at the head of `s`
(case-insensitively), with `\b` word boundaries on both sides?  `prev` is the
character just before the current position (`none` at subject start).  This
is the matching test of the regexes `(?i)\b(<literal>)\b` used by
`highlight` and `\b<literal>\b` used by `extract_tech_terms`. -/
def wbMatchAt (pat : List Char) (prev : Option Char) (s : List Char) : Bool :=
  !pat.isEmpty && lowerL (s.take pat.length) == lowerL pat
    && (isWordO prev != isWordO s.head?)
    && (isWordO (s.take pat.length).getLast? != isWordO (s.drop pat.length).head?)

/-- Scanner of `re.search(\b<pat>\b, s)` for a literal pattern: try a
word-boundary match at every position, left to right. -/
def searchWBAux (pat : List Char) (prev : Option Char) : List Char → Bool
  | [] => false
  | c :: cs => wbMatchAt pat prev (c :: cs) || searchWBAux pat (some c) cs

/-- `re.search` of a literal word-boundary pattern against `s`. -/
def searchWB (pat s : List Char) : Bool := searchWBAux pat none s

/-- First-occurrence deduplication, the order-preserving uniq performed by
`dict.fromkeys` in `extract_tech_terms` and by the seen-set loop at the end
of `retrieve_vacancies`.  `seen` accumulates the values already emitted. -/
def dedupFirstAux [DecidableEq α] (seen : List α) : List α → List α
  | [] => []
  | x :: xs => if x ∈ seen then dedupFirstAux seen xs else x :: dedupFirstAux (x :: seen) xs

/-- First-occurrence deduplication of a list. -/
def dedupFirst [DecidableEq α] (l : List α) : List α := dedupFirstAux [] l

/-- The `TECH_PATTERNS` table of `src/api/main.py`, with each regex
`\b<literal>\b` represented by its literal body (exactly the canonical term
string that the source recovers via `p.replace(r"\b", "").replace("\\", "")
.strip()`). -/
def TECH_PATTERNS : List String :=
  ["java", "spring", "spring boot", "python", "go", "javascript", "typescript",
   "sql", "postgres", "postgresql", "clickhouse", "mysql", "mongodb",
   "airflow", "kafka", "redis", "kubernetes", "docker", "terraform",
   "hadoop", "spark", "flink", "databricks",
   "etl", "elt", "dwh", "mlops", "ci/cd"]

/-- `extract_tech_terms` of `src/api/main.py`: lowercase the text, keep every
pattern that matches somewhere with word boundaries, emit the patterns'
canonical terms in pattern-list order, deduplicated preserving order. -/
def extract_tech_terms (text : String) : List String :=
  dedupFirst (TECH_PATTERNS.filter (fun p => searchWB p.data (lowerL text.data)))

/-- One pass of `re.sub(rf"(?i)\b({re.escape(kw)})\b", r"[\1]", out)`:
scan left to right; at a word-boundary match of the literal keyword, wrap the
matched original-case span in square brackets and resume after it (matches
never overlap); otherwise copy one character.  The fuel argument (initially
the subject length) only bounds the recursion; it never runs out on the
initial call because every step consumes at least one subject character. -/
def subWBAux (kw : List Char) : Nat → Option Char → List Char → List Char
  | 0, _, s => s
  | _ + 1, _, [] => []
  | fuel + 1, prev, c :: cs =>
    if wbMatchAt kw prev (c :: cs) then
      '[' :: ((c :: cs).take kw.length ++
        ']' :: subWBAux kw fuel ((c :: cs).take kw.length).getLast? ((c :: cs).drop kw.length))
    else
      c :: subWBAux kw fuel (some c) cs

/-- Substitution of one keyword over a whole subject. -/
def subWB (kw s : List Char) : List Char := subWBAux kw s.length none s

/-- Keyword ordering of `sorted(set(keywords), key=len, reverse=True)`:
descending length; the relative order of equal-length keywords is
unspecified in the source (set iteration order) and is fixed here to
first-occurrence order by a stable sort. -/
def sortByLenDesc (l : List String) : List String :=
  List.insertionSort (fun a b : String => b.length ≤ a.length) l

/-- `highlight` of `src/api/main.py`: wrap every word-boundary occurrence of
each keyword in square brackets, processing longer keywords first. -/
def highlight (text : String) (keywords : List String) : String :=
  if keywords.isEmpty then text
  else (sortByLenDesc (dedupFirst keywords)).foldl (fun out kw => ⟨subWB kw.data out.data⟩) text

/-- Whitespace-run collapsing of `re.sub(r"\s+", " ", s)`: every maximal run
of whitespace becomes a single space. -/
def collapseWS : List Char → List Char
  | [] => []
  | [c] => if c.isWhitespace then [' '] else [c]
  | c :: d :: cs =>
    if c.isWhitespace then
      if d.isWhitespace then collapseWS (d :: cs) else ' ' :: collapseWS (d :: cs)
    else c :: collapseWS (d :: cs)

/-- Python `str.strip()`: drop leading and trailing whitespace. -/
def stripEnds (l : List Char) : List Char :=
  ((l.dropWhile Char.isWhitespace).reverse.dropWhile Char.isWhitespace).reverse

/-- `normalize_ws` of `src/api/main.py`. -/
def normalize_ws (s : String) : String := ⟨stripEnds (collapseWS s.data)⟩

/-- Characters that are not the highlight markers `[` / `]`. -/
def notMarker (c : Char) : Bool := !(c == '[' || c == ']')

/-- Removal of all highlight markers from a formatted text. -/
def removeMarkers (s : String) : String := ⟨s.data.filter notMarker⟩

/-- The truncation marker appended by the `search` endpoint. -/
def ellipsis : List Char := ['.', '.', '.']

/-- The per-evidence text formatting of the `search` endpoint
(`src/api/main.py` lines 267-275): normalize whitespace, optionally
highlight, then truncate to `max_quote` characters with an explicit
marker. -/
def formatEvidenceText (do_highlight : Bool) (max_quote : Nat) (keywords : List String)
    (text : String) : String :=
  let txt := normalize_ws text
  let txt := if do_highlight then highlight txt keywords else txt
  if max_quote < txt.length then ⟨txt.data.take max_quote ++ ellipsis⟩ else txt

/-- Truncation alone, applied to an (already normalized) source text; used to
state the spec's `normalized, truncated source text`. -/
def truncAt (max_quote : Nat) (s : String) : String :=
  if max_quote < s.length then ⟨s.data.take max_quote ++ ellipsis⟩ else s

/-- A candidate fragment row as seen by the retrieval SQL: the join of
`vacancy_chunks` (with non-null embedding) and `vacancies`, carrying the two
similarity primitives against the current query as data — `dist` is
`c.embedding <=> q` and `kw_sim` is `similarity(lower(c.text), lower(q))`.
The pass-through vacancy metadata columns (name, employer, area, url) are
omitted: they are copied verbatim and never inspected by the engine. -/
structure Chunk where
  vacancy_id : Int
  chunk_no : Int
  text : String
  dist : ℚ
  kw_sim : ℚ
deriving DecidableEq

/-- A row of the `scored` CTE: a candidate fragment together with its stream
position (`pos`, the index in the distance-ordered candidate stream, used to
fix PostgreSQL's unspecified tie order deterministically), the reported
lexical similarity and the combined score. -/
structure SRow where
  pos : Nat
  vacancy_id : Int
  chunk_no : Int
  text : String
  dist : ℚ
  kw_sim : ℚ
  score : ℚ
deriving DecidableEq

/-- The `scored` CTE of `SQL_V2_WITH_TRGM` (when `withTrgm` is true) or of
`SQL_V2_NO_TRGM` (when false): order the pool by distance ascending, keep the
first `cands` rows, and score each row — `dist - w * kw_sim` in the hybrid
variant, `dist` with `kw_sim` reported as `0.0` otherwise. -/
def scoredRows (withTrgm : Bool) (w : ℚ) (cands : Nat) (pool : List Chunk) : List SRow :=
  (((List.insertionSort (fun a b : Chunk => a.dist ≤ b.dist) pool).take cands).enum).map
    (fun ic =>
      { pos := ic.1
        vacancy_id := ic.2.vacancy_id
        chunk_no := ic.2.chunk_no
        text := ic.2.text
        dist := ic.2.dist
        kw_sim := if withTrgm then ic.2.kw_sim else 0
        score := if withTrgm then ic.2.dist - w * ic.2.kw_sim else ic.2.dist })

/-- Strict ordering key of `row_number() over (partition by vacancy_id order
by score asc)`: by score, ties fixed by stream position. -/
def keyLt (y x : SRow) : Bool :=
  decide (y.score < x.score) || (decide (y.score = x.score) && decide (y.pos < x.pos))

/-- The `rn` column of the `ranked` CTE: 1-based rank of `r` among the rows
of its own vacancy, by combined score ascending. -/
def rnOf (rows : List SRow) (r : SRow) : Nat :=
  1 + (rows.filter (fun y => decide (y.vacancy_id = r.vacancy_id) && keyLt y r)).length

/-- The combined scores of one vacancy's candidate rows. -/
def vacScores (rows : List SRow) (vid : Int) : List ℚ :=
  (rows.filter (fun y => decide (y.vacancy_id = vid))).map (fun y => y.score)

/-- Minimum of a list of scores, `none` on the empty list. -/
def minScore : List ℚ → Option ℚ
  | [] => none
  | x :: xs => some (xs.foldl min x)

/-- The `best_score` column of the `ranked` CTE: `min(score) over (partition
by vacancy_id)`.  The fallback is never reached for a row of `rows`. -/
def bestOf (rows : List SRow) (r : SRow) : ℚ :=
  (minScore (vacScores rows r.vacancy_id)).getD r.score

/-- A row of the `ranked` CTE. -/
structure RRow extends SRow where
  rn : Nat
  best : ℚ
deriving DecidableEq

/-- The `ranked` CTE: every scored row annotated with its within-vacancy rank
and its vacancy's best score. -/
def rankRows (rows : List SRow) : List RRow :=
  rows.map (fun r => { toSRow := r, rn := rnOf rows r, best := bestOf rows r })

/-- The `top_vacs` CTE: the distinct `(vacancy_id, best_score)` pairs, ordered
by best score ascending (stable over first occurrence in the stream, fixing
PostgreSQL's unspecified tie order), limited to `k`. -/
def topVacs (k : Nat) (rrows : List RRow) : List (Int × ℚ) :=
  (List.insertionSort (fun a b : Int × ℚ => a.2 ≤ b.2)
    (dedupFirst (rrows.map (fun r => (r.vacancy_id, r.best))))).take k

/-- Ordering of the final SELECT: `order by t.best_score asc, r.rn asc`. -/
def finalLe (a b : RRow) : Prop :=
  a.best < b.best ∨ (a.best = b.best ∧ a.rn ≤ b.rn)

instance : DecidableRel finalLe := fun a b => by unfold finalLe; infer_instance

/-- The final SELECT of both retrieval SQL variants: keep the ranked rows of
the top vacancies whose rank does not exceed `per_vac`, ordered by
`(best_score, rn)` (stable over the stream, fixing the unspecified tie
order). -/
def finalRows (withTrgm : Bool) (w : ℚ) (cands k : Nat) (per_vac : Int)
    (pool : List Chunk) : List RRow :=
  let rrows := rankRows (scoredRows withTrgm w cands pool)
  let tv := topVacs k rrows
  List.insertionSort finalLe
    (rrows.filter (fun r => decide ((r.rn : Int) ≤ per_vac)
      && tv.any (fun p => decide (p.1 = r.vacancy_id))))

/-- One evidence entry appended by the Python row loop of
`retrieve_vacancies`. -/
structure Evidence where
  chunk_no : Int
  text : String
  dist : ℚ
  kw_sim : ℚ
  score : ℚ
  rank_in_vacancy : Nat
deriving DecidableEq

/-- One entry of `vac_map`, in `vac_order` position: vacancy id, the
`best_score` taken from the vacancy's first row, and its evidence list in row
order.  Metadata pass-through columns are omitted as in `Chunk`. -/
structure VacEntry where
  vacancy_id : Int
  best_score : ℚ
  evidence : List Evidence
deriving DecidableEq

/-- The deduplicated `vac_order` of `retrieve_vacancies`: vacancy ids in
first-occurrence order of the returned rows (the dict-insertion order,
re-deduplicated by the final seen-set pass). -/
def vacOrder (rows : List RRow) : List Int :=
  dedupFirst (rows.map (fun r => r.vacancy_id))

/-- The evidence list accumulated for one vacancy by the row loop. -/
def evidenceFor (rows : List RRow) (vid : Int) : List Evidence :=
  (rows.filter (fun r => decide (r.vacancy_id = vid))).map
    (fun r => { chunk_no := r.chunk_no, text := r.text, dist := r.dist,
                kw_sim := r.kw_sim, score := r.score, rank_in_vacancy := r.rn })

/-- The `best_score` recorded for a vacancy when its first row is seen.  The
fallback is never reached for a vacancy of `vacOrder rows`. -/
def bestRecorded (rows : List RRow) (vid : Int) : ℚ :=
  ((rows.find? (fun r => decide (r.vacancy_id = vid))).map (fun r => r.best)).getD 0

/-- The `vac_map` entries read off in `vac_order` position, as the `search` /
`ask` endpoints iterate them. -/
def vacEntries (rows : List RRow) : List VacEntry :=
  (vacOrder rows).map (fun vid =>
    { vacancy_id := vid, best_score := bestRecorded rows vid,
      evidence := evidenceFor rows vid })

/-- Result of `retrieve_vacancies`: `vac_order` with the `vac_map` entries,
the trgm availability flag, and the weight actually used. -/
structure RetrieveResult where
  vac_order : List Int
  entries : List VacEntry
  trgm : Bool
  kw_weight_used : ℚ
deriving DecidableEq

deriving instance DecidableEq for Except

/-- The weight after the downgrade `if not trgm: kw_weight = 0.0`. -/
def effectiveWeight (trgm : Bool) (w : ℚ) : ℚ := if trgm then w else 0

/-- The branch condition `if trgm and kw_weight > 0` selecting
`SQL_V2_WITH_TRGM` over `SQL_V2_NO_TRGM`. -/
def hybridActive (trgm : Bool) (w : ℚ) : Bool :=
  trgm && decide (0 < effectiveWeight trgm w)

/-- The scored candidate stream produced for one call, after weight
downgrade and branch selection. -/
def candidateRows (pool : List Chunk) (trgm : Bool) (w : ℚ) (cands : Nat) : List SRow :=
  scoredRows (hybridActive trgm w) (effectiveWeight trgm w) cands pool

/-- The rows returned by the retrieval SQL for one call of
`retrieve_vacancies`, after weight downgrade and branch selection. -/
def resultRows (pool : List Chunk) (trgm : Bool) (k per_vac candidates : Int)
    (kw_weight : ℚ) : List RRow :=
  finalRows (hybridActive trgm kw_weight) (effectiveWeight trgm kw_weight)
    candidates.toNat k.toNat per_vac pool

/-- `retrieve_vacancies` of `src/api/main.py`.  `pool` and `trgm` stand for
the storage collaborator (the candidate fragments with their two similarity
primitives, and the `pg_trgm` capability probe); `k`, `per_vac`,
`candidates`, `kw_weight` are the caller's tunables.  A negative `k` or
`candidates` reaches a PostgreSQL `LIMIT` clause, which raises an error
(`LIMIT must not be negative`) that propagates out of the call. -/
def retrieve_vacancies (pool : List Chunk) (trgm : Bool) (k per_vac candidates : Int)
    (kw_weight : ℚ) : Except String RetrieveResult :=
  if candidates < 0 ∨ k < 0 then .error "LIMIT must not be negative"
  else
    .ok { vac_order := vacOrder (resultRows pool trgm k per_vac candidates kw_weight)
          entries := vacEntries (resultRows pool trgm k per_vac candidates kw_weight)
          trgm := trgm
          kw_weight_used := effectiveWeight trgm kw_weight }

/-- The metadata reported by the `search` endpoint:
`hybrid_used = bool(trgm and kw_used > 0)` and `kw_weight_used`. -/
def hybrid_used (r : RetrieveResult) : Bool :=
  r.trgm && decide (0 < r.kw_weight_used)

instance : IsTrans RRow finalLe :=
  ⟨by
    intro a b c hab hbc
    rcases hab with h1 | ⟨h1, h2⟩ <;> rcases hbc with h3 | ⟨h3, h4⟩
    · exact Or.inl (h1.trans h3)
    · exact Or.inl (h3 ▸ h1)
    · exact Or.inl (h1 ▸ h3)
    · exact Or.inr ⟨h1.trans h3, h2.trans h4⟩⟩

instance : IsTotal RRow finalLe :=
  ⟨by
    intro a b
    rcases lt_trichotomy a.best b.best with h | h | h
    · exact Or.inl (Or.inl h)
    · rcases Nat.le_total a.rn b.rn with h2 | h2
      · exact Or.inl (Or.inr ⟨h, h2⟩)
      · exact Or.inr (Or.inr ⟨h.symm, h2⟩)
    · exact Or.inr (Or.inl h)⟩

/-- The aggregate (best) combined score of one vacancy over the scored
candidate stream, with an arbitrary default on the empty stream. -/
def aggScore (s : List SRow) (vid : Int) : ℚ := (minScore (vacScores s vid)).getD 0

/-- Tie-scenario pool used by the C5 witness. -/
def pool5 : List Chunk :=
  [{ vacancy_id := 1, chunk_no := 1, text := "a1", dist := mkRat 1 10, kw_sim := 0 },
   { vacancy_id := 1, chunk_no := 2, text := "a2", dist := mkRat 3 10, kw_sim := mkRat 1 4 },
   { vacancy_id := 2, chunk_no := 1, text := "b1", dist := mkRat 1 5, kw_sim := mkRat 3 20 }]

/-- The entry returned for document 1 on `pool5`, used by the C5 witness. -/
def entry5 : VacEntry :=
  { vacancy_id := 1, best_score := mkRat 1 20,
    evidence := [{ chunk_no := 2, text := "a2", dist := mkRat 3 10, kw_sim := mkRat 1 4,
                   score := mkRat 1 20, rank_in_vacancy := 1 },
                 { chunk_no := 1, text := "a1", dist := mkRat 1 10, kw_sim := 0,
                   score := mkRat 1 10, rank_in_vacancy := 2 }] }

/-- The full result returned on `pool5`, used by the C5 witness. -/
def res5 : RetrieveResult :=
  { vac_order := [2, 1]
    entries :=
      [{ vacancy_id := 2, best_score := mkRat 1 20,
         evidence := [{ chunk_no := 1, text := "b1", dist := mkRat 1 5,
                        kw_sim := mkRat 3 20, score := mkRat 1 20,
                        rank_in_vacancy := 1 }] },
       entry5]
    trgm := true, kw_weight_used := mkRat 1 1 }

/-! ### Basic lemmas about the embedded operations -/

theorem dedupFirstAux_sublist [DecidableEq α] (seen : List α) :
    ∀ l : List α, (dedupFirstAux seen l).Sublist l
  | [] => List.Sublist.refl []
  | x :: xs => by
    unfold dedupFirstAux
    split
    · exact (dedupFirstAux_sublist seen xs).trans (List.sublist_cons_self x xs)
    · exact (dedupFirstAux_sublist (x :: seen) xs).cons₂ x

theorem mem_of_mem_dedupFirstAux [DecidableEq α] {x : α} :
    ∀ {l : List α} {seen : List α}, x ∈ dedupFirstAux seen l → x ∈ l ∧ x ∉ seen := by
  intro l
  induction l with
  | nil => intro seen h; cases h
  | cons y ys ih =>
    intro seen h
    unfold dedupFirstAux at h
    split at h
    · obtain ⟨h1, h2⟩ := ih h
      exact ⟨List.mem_cons_of_mem y h1, h2⟩
    · rcases List.mem_cons.mp h with rfl | h'
      · exact ⟨List.mem_cons_self x ys, by assumption⟩
      · obtain ⟨h1, h2⟩ := ih h'
        exact ⟨List.mem_cons_of_mem y h1, fun hx => h2 (List.mem_cons_of_mem y hx)⟩

theorem nodup_dedupFirstAux [DecidableEq α] :
    ∀ (l : List α) (seen : List α), (dedupFirstAux seen l).Nodup := by
  intro l
  induction l with
  | nil => intro seen; exact List.nodup_nil
  | cons y ys ih =>
    intro seen
    unfold dedupFirstAux
    split
    · exact ih seen
    · refine List.Nodup.cons ?_ (ih (y :: seen))
      intro hy
      exact (mem_of_mem_dedupFirstAux hy).2 (List.mem_cons_self y seen)

theorem nodup_dedupFirst [DecidableEq α] (l : List α) : (dedupFirst l).Nodup :=
  nodup_dedupFirstAux l []

theorem dedupFirst_sublist [DecidableEq α] (l : List α) : (dedupFirst l).Sublist l :=
  dedupFirstAux_sublist [] l

theorem mem_of_mem_dedupFirst [DecidableEq α] {x : α} {l : List α}
    (h : x ∈ dedupFirst l) : x ∈ l :=
  (mem_of_mem_dedupFirstAux h).1

/-! ### Lemmas about the retrieval pipeline -/

theorem scoredRows_not_hybrid {w : ℚ} {cands : Nat} {pool : List Chunk} {r : SRow}
    (h : r ∈ scoredRows false w cands pool) : r.score = r.dist ∧ r.kw_sim = 0 := by
  unfold scoredRows at h
  obtain ⟨ic, _, rfl⟩ := List.mem_map.mp h
  exact ⟨rfl, rfl⟩

theorem hybridActive_eq_false {trgm : Bool} {w : ℚ} (h : w ≤ 0 ∨ trgm = false) :
    hybridActive trgm w = false := by
  cases trgm
  · simp [hybridActive]
  · rcases h with h | h
    · simp [hybridActive, effectiveWeight]
      exact h
    · cases h

theorem retrieve_ok {pool : List Chunk} {trgm : Bool} {k per_vac candidates : Int}
    {w : ℚ} {res : RetrieveResult}
    (hok : retrieve_vacancies pool trgm k per_vac candidates w = Except.ok res) :
    0 ≤ candidates ∧ 0 ≤ k ∧
      res = { vac_order := vacOrder (resultRows pool trgm k per_vac candidates w)
              entries := vacEntries (resultRows pool trgm k per_vac candidates w)
              trgm := trgm
              kw_weight_used := effectiveWeight trgm w } := by
  unfold retrieve_vacancies at hok
  split at hok
  · cases hok
  · next h =>
    rcases not_or.mp h with ⟨h1, h2⟩
    exact ⟨Int.not_lt.mp h1, Int.not_lt.mp h2, (Except.ok.inj hok).symm⟩

theorem evidence_source {rows : List RRow} {entry : VacEntry} {ev : Evidence}
    (he : entry ∈ vacEntries rows) (hev : ev ∈ entry.evidence) :
    ∃ rr ∈ rows, rr.vacancy_id = entry.vacancy_id ∧
      ev = { chunk_no := rr.chunk_no, text := rr.text, dist := rr.dist,
             kw_sim := rr.kw_sim, score := rr.score, rank_in_vacancy := rr.rn } := by
  obtain ⟨vid, hvid, rfl⟩ := List.mem_map.mp he
  obtain ⟨rr, hrr, rfl⟩ := List.mem_map.mp hev
  refine ⟨rr, List.mem_of_mem_filter hrr, ?_, rfl⟩
  simpa using List.of_mem_filter hrr

theorem mem_rankRows_of_mem_finalRows {wt : Bool} {w : ℚ} {cands k : Nat}
    {pv : Int} {pool : List Chunk} {rr : RRow}
    (h : rr ∈ finalRows wt w cands k pv pool) :
    rr ∈ rankRows (scoredRows wt w cands pool) := by
  unfold finalRows at h
  exact List.mem_of_mem_filter ((List.mem_insertionSort finalLe).mp h)

theorem mem_rankRows {s : List SRow} {rr : RRow} (h : rr ∈ rankRows s) :
    rr.toSRow ∈ s ∧ rr.rn = rnOf s rr.toSRow ∧ rr.best = bestOf s rr.toSRow := by
  obtain ⟨r, hr, rfl⟩ := List.mem_map.mp h
  exact ⟨hr, rfl, rfl⟩

/-- When the hybrid branch is off, every returned evidence fragment scores by
distance only and reports a zero lexical similarity. -/
theorem evidence_distance_only {pool : List Chunk} {trgm : Bool}
    {k per_vac candidates : Int} {w : ℚ}
    (hact : hybridActive trgm w = false)
    {entry : VacEntry} {ev : Evidence}
    (hentry : entry ∈ vacEntries (resultRows pool trgm k per_vac candidates w))
    (hev : ev ∈ entry.evidence) : ev.score = ev.dist ∧ ev.kw_sim = 0 := by
  obtain ⟨rr, hrr, -, rfl⟩ := evidence_source hentry hev
  unfold resultRows at hrr
  rw [hact] at hrr
  exact scoredRows_not_hybrid (mem_rankRows (mem_rankRows_of_mem_finalRows hrr)).1

/-! ### Claim theorems -/

/-- C1: when the caller-supplied weight is 0, or the lexical signal
(pg_trgm) is unavailable, the combined score returned for every candidate
fragment equals its semantic distance exactly, and its lexical similarity is
reported as 0.0 — present, never omitted. -/
theorem score_degrades_to_distance (pool : List Chunk) (trgm : Bool)
    (k per_vac candidates : Int) (w : ℚ) (res : RetrieveResult)
    (hdeg : w = 0 ∨ trgm = false)
    (hok : retrieve_vacancies pool trgm k per_vac candidates w = Except.ok res)
    (entry : VacEntry) (hentry : entry ∈ res.entries)
    (ev : Evidence) (hev : ev ∈ entry.evidence) :
    ev.score = ev.dist ∧ ev.kw_sim = 0 := by
  obtain ⟨-, -, rfl⟩ := retrieve_ok hok
  exact evidence_distance_only
    (hybridActive_eq_false (hdeg.imp (fun h => le_of_eq h) id)) hentry hev

/-- Witness for C1 at a concrete one-fragment pool with weight 1/4 and the
lexical index absent. -/
theorem score_degrades_to_distance_witness :
    ({ chunk_no := 1, text := "t", dist := mkRat 1 2, kw_sim := 0, score := mkRat 1 2,
       rank_in_vacancy := 1 } : Evidence).score =
      ({ chunk_no := 1, text := "t", dist := mkRat 1 2, kw_sim := 0, score := mkRat 1 2,
         rank_in_vacancy := 1 } : Evidence).dist ∧
    ({ chunk_no := 1, text := "t", dist := mkRat 1 2, kw_sim := 0, score := mkRat 1 2,
       rank_in_vacancy := 1 } : Evidence).kw_sim = 0 :=
  score_degrades_to_distance
    [{ vacancy_id := 1, chunk_no := 1, text := "t", dist := mkRat 1 2, kw_sim := mkRat 1 4 }]
    false 1 1 10 (mkRat 1 4)
    { vac_order := [1]
      entries :=
        [{ vacancy_id := 1, best_score := mkRat 1 2,
           evidence := [{ chunk_no := 1, text := "t", dist := mkRat 1 2, kw_sim := 0,
                          score := mkRat 1 2, rank_in_vacancy := 1 }] }]
      trgm := false, kw_weight_used := 0 }
    (Or.inr rfl) (by decide)
    { vacancy_id := 1, best_score := mkRat 1 2,
      evidence := [{ chunk_no := 1, text := "t", dist := mkRat 1 2, kw_sim := 0,
                     score := mkRat 1 2, rank_in_vacancy := 1 }] }
    (by decide)
    { chunk_no := 1, text := "t", dist := mkRat 1 2, kw_sim := 0, score := mkRat 1 2,
      rank_in_vacancy := 1 }
    (by decide)

/-- C2: when the lexical index is unavailable, whatever positive weight the
caller supplied, the engine forces the effective weight to 0.0, the metadata
reports `weight_used = 0.0` and `hybrid_used = false`, and scoring behaves as
distance-only. -/
theorem lexical_unavailable_forces_zero_weight (pool : List Chunk)
    (k per_vac candidates : Int) (w : ℚ) (res : RetrieveResult)
    (hok : retrieve_vacancies pool false k per_vac candidates w = Except.ok res) :
    res.kw_weight_used = 0 ∧ hybrid_used res = false ∧
      ∀ entry ∈ res.entries, ∀ ev ∈ entry.evidence,
        ev.score = ev.dist ∧ ev.kw_sim = 0 := by
  obtain ⟨-, -, rfl⟩ := retrieve_ok hok
  refine ⟨rfl, rfl, ?_⟩
  intro entry hentry ev hev
  exact evidence_distance_only (hybridActive_eq_false (Or.inr rfl)) hentry hev

/-- Witness for C2 at a concrete one-fragment pool with requested weight 1/2
and the lexical index absent. -/
theorem lexical_unavailable_forces_zero_weight_witness :
    ({ vac_order := [1]
       entries :=
         [{ vacancy_id := 1, best_score := mkRat 1 2,
            evidence := [{ chunk_no := 1, text := "t", dist := mkRat 1 2, kw_sim := 0,
                           score := mkRat 1 2, rank_in_vacancy := 1 }] }]
       trgm := false, kw_weight_used := 0 } : RetrieveResult).kw_weight_used = 0 ∧
    hybrid_used
      { vac_order := [1]
        entries :=
          [{ vacancy_id := 1, best_score := mkRat 1 2,
             evidence := [{ chunk_no := 1, text := "t", dist := mkRat 1 2, kw_sim := 0,
                            score := mkRat 1 2, rank_in_vacancy := 1 }] }]
        trgm := false, kw_weight_used := 0 } = false ∧
    ∀ entry ∈ ({ vac_order := [1]
                 entries :=
                   [{ vacancy_id := 1, best_score := mkRat 1 2,
                      evidence := [{ chunk_no := 1, text := "t", dist := mkRat 1 2,
                                     kw_sim := 0, score := mkRat 1 2,
                                     rank_in_vacancy := 1 }] }]
                 trgm := false, kw_weight_used := 0 } : RetrieveResult).entries,
      ∀ ev ∈ entry.evidence, ev.score = ev.dist ∧ ev.kw_sim = 0 :=
  lexical_unavailable_forces_zero_weight
    [{ vacancy_id := 1, chunk_no := 1, text := "t", dist := mkRat 1 2, kw_sim := mkRat 1 4 }]
    1 1 10 (mkRat 1 2) _ (by decide)

/-- C10: for every caller-supplied weight that is not positive — including
strictly negative weights — retrieval takes the distance-only path even when
the lexical index is available: every fragment's combined score equals its
semantic distance, lexical similarity is reported as 0.0, and `hybrid_used`
is false. -/
theorem nonpositive_weight_distance_only (pool : List Chunk) (trgm : Bool)
    (k per_vac candidates : Int) (w : ℚ) (res : RetrieveResult)
    (hw : w ≤ 0)
    (hok : retrieve_vacancies pool trgm k per_vac candidates w = Except.ok res) :
    hybrid_used res = false ∧
      ∀ entry ∈ res.entries, ∀ ev ∈ entry.evidence,
        ev.score = ev.dist ∧ ev.kw_sim = 0 := by
  obtain ⟨-, -, rfl⟩ := retrieve_ok hok
  refine ⟨?_, ?_⟩
  · show (trgm && decide (0 < effectiveWeight trgm w)) = false
    exact hybridActive_eq_false (Or.inl hw)
  · intro entry hentry ev hev
    exact evidence_distance_only (hybridActive_eq_false (Or.inl hw)) hentry hev

/-- Witness for C10 at a concrete one-fragment pool with the lexical index
available and a strictly negative weight. -/
theorem nonpositive_weight_distance_only_witness :
    hybrid_used
      { vac_order := [3]
        entries :=
          [{ vacancy_id := 3, best_score := mkRat 2 5,
             evidence := [{ chunk_no := 1, text := "x", dist := mkRat 2 5, kw_sim := 0,
                            score := mkRat 2 5, rank_in_vacancy := 1 }] }]
        trgm := true, kw_weight_used := mkRat (-1) 2 } = false ∧
    ∀ entry ∈ ({ vac_order := [3]
                 entries :=
                   [{ vacancy_id := 3, best_score := mkRat 2 5,
                      evidence := [{ chunk_no := 1, text := "x", dist := mkRat 2 5,
                                     kw_sim := 0, score := mkRat 2 5,
                                     rank_in_vacancy := 1 }] }]
                 trgm := true, kw_weight_used := mkRat (-1) 2 } : RetrieveResult).entries,
      ∀ ev ∈ entry.evidence, ev.score = ev.dist ∧ ev.kw_sim = 0 :=
  nonpositive_weight_distance_only
    [{ vacancy_id := 3, chunk_no := 1, text := "x", dist := mkRat 2 5, kw_sim := mkRat 9 10 }]
    true 1 1 10 (mkRat (-1) 2) _ (by decide) (by decide)

/-- C3: the returned result list contains each document id at most once,
even when several fragments of the same document were candidates. -/
theorem result_doc_ids_unique (pool : List Chunk) (trgm : Bool)
    (k per_vac candidates : Int) (w : ℚ) (res : RetrieveResult)
    (hok : retrieve_vacancies pool trgm k per_vac candidates w = Except.ok res) :
    res.vac_order.Nodup := by
  obtain ⟨-, -, rfl⟩ := retrieve_ok hok
  exact nodup_dedupFirst _

/-- Witness for C3 on a pool where one document owns two candidate
fragments. -/
theorem result_doc_ids_unique_witness :
    ({ vac_order := [1]
       entries :=
         [{ vacancy_id := 1, best_score := mkRat 1 10,
            evidence := [{ chunk_no := 1, text := "u", dist := mkRat 1 10, kw_sim := 0,
                           score := mkRat 1 10, rank_in_vacancy := 1 },
                         { chunk_no := 2, text := "v", dist := mkRat 1 5, kw_sim := 0,
                           score := mkRat 1 5, rank_in_vacancy := 2 }] }]
       trgm := false, kw_weight_used := 0 } : RetrieveResult).vac_order.Nodup :=
  result_doc_ids_unique
    [{ vacancy_id := 1, chunk_no := 1, text := "u", dist := mkRat 1 10, kw_sim := 0 },
     { vacancy_id := 1, chunk_no := 2, text := "v", dist := mkRat 1 5, kw_sim := 0 }]
    false 2 2 10 0 _ (by decide)

/-- C6: with two candidate fragments of document 1 at distances 1/10 and
3/10, one fragment of document 2 at distance 1/20, `k = 2`, `per_doc = 1`
and weight 0, retrieval returns the documents in order [2, 1] and
document 1's evidence contains only its 1/10-distance fragment, not the
3/10 one. -/
theorem scenario_order_and_evidence_cap :
    retrieve_vacancies
      [{ vacancy_id := 1, chunk_no := 1, text := "a1", dist := mkRat 1 10, kw_sim := 0 },
       { vacancy_id := 1, chunk_no := 2, text := "a2", dist := mkRat 3 10, kw_sim := 0 },
       { vacancy_id := 2, chunk_no := 1, text := "b", dist := mkRat 1 20, kw_sim := 0 }]
      true 2 1 10 0 =
    .ok { vac_order := [2, 1]
          entries :=
            [{ vacancy_id := 2, best_score := mkRat 1 20,
               evidence := [{ chunk_no := 1, text := "b", dist := mkRat 1 20, kw_sim := 0,
                              score := mkRat 1 20, rank_in_vacancy := 1 }] },
             { vacancy_id := 1, best_score := mkRat 1 10,
               evidence := [{ chunk_no := 1, text := "a1", dist := mkRat 1 10, kw_sim := 0,
                              score := mkRat 1 10, rank_in_vacancy := 1 }] }]
          trgm := true, kw_weight_used := 0 } := by decide

/-- C9 counterexample: a negative overall cap `k` reaches the SQL `LIMIT`
clause and the call raises the storage error instead of returning an empty
result list. -/
theorem negative_k_raises :
    retrieve_vacancies
      [{ vacancy_id := 1, chunk_no := 1, text := "t", dist := mkRat 1 2, kw_sim := 0 }]
      true (-1) 2 250 (mkRat 1 4) = Except.error "LIMIT must not be negative" := by decide

/-- C9 amended: a non-positive `per_doc`, a zero `k`, or an empty candidate
pool each yield an empty result list without an error; but a strictly
negative `k` (or `candidates`) raises the storage error instead. -/
theorem degenerate_caps_empty (pool : List Chunk) (trgm : Bool)
    (k per_vac candidates : Int) (w : ℚ) (res : RetrieveResult)
    (hdeg : per_vac ≤ 0 ∨ k = 0 ∨ pool = [])
    (hok : retrieve_vacancies pool trgm k per_vac candidates w = Except.ok res) :
    res.vac_order = [] ∧ res.entries = [] := by
  obtain ⟨-, -, rfl⟩ := retrieve_ok hok
  suffices h : resultRows pool trgm k per_vac candidates w = [] by
    constructor
    · show vacOrder (resultRows pool trgm k per_vac candidates w) = []
      rw [h]; rfl
    · show vacEntries (resultRows pool trgm k per_vac candidates w) = []
      rw [h]; rfl
  unfold resultRows finalRows
  dsimp only
  rcases hdeg with hpv | hk0 | hpool
  · rw [List.filter_eq_nil_iff.mpr ?_]
    · rfl
    · intro rr hrr
      have h1 := (mem_rankRows hrr).2.1
      simp only [Bool.and_eq_true, decide_eq_true_eq, not_and]
      intro hle
      exfalso
      rw [h1] at hle
      unfold rnOf at hle
      omega
  · subst hk0
    have htv : topVacs (Int.toNat 0)
        (rankRows (scoredRows (hybridActive trgm w) (effectiveWeight trgm w)
          candidates.toNat pool)) = [] := by
      unfold topVacs
      exact List.take_zero _
    rw [htv]
    rw [List.filter_eq_nil_iff.mpr ?_]
    · rfl
    · intro rr hrr
      simp
  · subst hpool
    have hs : scoredRows (hybridActive trgm w) (effectiveWeight trgm w)
        candidates.toNat ([] : List Chunk) = [] := by
      unfold scoredRows
      simp
    rw [hs]
    rfl

/-- Witness for C9 at a concrete pool with `per_doc = 0`. -/
theorem degenerate_caps_empty_witness :
    ({ vac_order := [], entries := [], trgm := false, kw_weight_used := 0 } :
        RetrieveResult).vac_order = [] ∧
    ({ vac_order := [], entries := [], trgm := false, kw_weight_used := 0 } :
        RetrieveResult).entries = [] :=
  degenerate_caps_empty
    [{ vacancy_id := 1, chunk_no := 1, text := "t", dist := mkRat 1 2, kw_sim := 0 }]
    false 3 0 10 0 _ (Or.inl le_rfl) (by decide)

/-- C7 counterexample: on a text containing Spring Boot, the pattern list
also yields a separate spring hit, and highlighting with both keywords does
not wrap the phrase as a single unit. -/
theorem spring_boot_counterexample :
    "spring" ∈ extract_tech_terms "Spring Boot developer" ∧
      highlight "Spring Boot developer" ["spring", "spring boot"] ≠
        "[Spring Boot] developer" := by decide

/-- C7 amended: extraction yields spring boot exactly once but also a
separate spring hit, because each pattern matches independently at word
boundaries; highlighting applies the longer keyword first, wrapping the
phrase, and then the shorter keyword additionally wraps the inner word,
double-wrapping it. -/
theorem spring_boot_actual_behavior :
    extract_tech_terms "Spring Boot developer" = ["spring", "spring boot"] ∧
      highlight "Spring Boot developer" ["spring", "spring boot"] =
        "[[Spring] Boot] developer" := by decide

theorem filter_subWBAux (kw : List Char) :
    ∀ (fuel : Nat) (prev : Option Char) (s : List Char),
      (subWBAux kw fuel prev s).filter notMarker = s.filter notMarker := by
  intro fuel
  induction fuel with
  | zero => intro prev s; rfl
  | succ n ih =>
    intro prev s
    cases s with
    | nil => rfl
    | cons c cs =>
      show (subWBAux kw (n + 1) prev (c :: cs)).filter notMarker = _
      rw [subWBAux]
      split
      · rw [List.filter_cons_of_neg (by decide), List.filter_append,
            List.filter_cons_of_neg (by decide), ih, ← List.filter_append,
            List.take_append_drop]
      · rw [List.filter_cons, List.filter_cons, ih]

theorem filter_subWB (kw s : List Char) :
    (subWB kw s).filter notMarker = s.filter notMarker :=
  filter_subWBAux kw s.length none s

theorem foldl_subWB_filter (L : List String) :
    ∀ t : String,
      ((L.foldl (fun out kw => (⟨subWB kw.data out.data⟩ : String)) t)).data.filter notMarker
        = t.data.filter notMarker := by
  induction L with
  | nil => intro t; rfl
  | cons kw L ih =>
    intro t
    rw [List.foldl_cons, ih]
    exact filter_subWB kw.data t.data

theorem highlight_filter (t : String) (kws : List String) :
    (highlight t kws).data.filter notMarker = t.data.filter notMarker := by
  unfold highlight
  split
  · rfl
  · exact foldl_subWB_filter _ t

theorem mem_collapseWS {c : Char} :
    ∀ l : List Char, c ∈ collapseWS l → c = ' ' ∨ c ∈ l
  | [] => fun h => absurd h (List.not_mem_nil c)
  | [d] => by
    intro h
    unfold collapseWS at h
    split at h
    · left; simpa using h
    · right; simpa using h
  | d :: e :: es => by
    intro h
    unfold collapseWS at h
    split at h
    · split at h
      · rcases mem_collapseWS (e :: es) h with h' | h'
        · exact Or.inl h'
        · exact Or.inr (List.mem_cons_of_mem d h')
      · rcases List.mem_cons.mp h with rfl | h'
        · exact Or.inl rfl
        · rcases mem_collapseWS (e :: es) h' with h'' | h''
          · exact Or.inl h''
          · exact Or.inr (List.mem_cons_of_mem d h'')
    · rcases List.mem_cons.mp h with rfl | h'
      · exact Or.inr (List.mem_cons_self _ _)
      · rcases mem_collapseWS (e :: es) h' with h'' | h''
        · exact Or.inl h''
        · exact Or.inr (List.mem_cons_of_mem d h'')

theorem mem_stripEnds {c : Char} {l : List Char} (h : c ∈ stripEnds l) : c ∈ l := by
  unfold stripEnds at h
  rw [List.mem_reverse] at h
  have h1 := (List.dropWhile_sublist _).subset h
  rw [List.mem_reverse] at h1
  exact (List.dropWhile_sublist _).subset h1

theorem normalize_ws_no_markers {t : String}
    (hb : '[' ∉ t.data ∧ ']' ∉ t.data) :
    (normalize_ws t).data.filter notMarker = (normalize_ws t).data := by
  apply List.filter_eq_self.mpr
  intro c hc
  rcases mem_collapseWS _ (mem_stripEnds hc) with rfl | hct
  · rfl
  · simp only [notMarker, Bool.not_eq_true', Bool.or_eq_false_iff, beq_eq_false_iff_ne,
      ne_eq]
    exact ⟨fun hh => hb.1 (hh ▸ hct), fun hh => hb.2 (hh ▸ hct)⟩

/-- C8 counterexample: with fragment text spring boot x, keyword spring, and
length budget 8, removing the markers from the formatted evidence yields
fewer source characters than the normalized, truncated source text — the
budget is partly consumed by the marker characters. -/
theorem highlight_truncation_counterexample :
    removeMarkers (formatEvidenceText true 8 ["spring"] "spring boot x") ≠
      truncAt 8 (normalize_ws "spring boot x") := by decide

/-- C8 amended: for marker-free source text, removing all highlight markers
from the formatted evidence reproduces the normalized source exactly when
the highlighted text fits the length budget; when it exceeds the budget, the
de-marked text is a prefix of the normalized source followed by the
truncation marker — possibly shorter than the budget, since markers consume
part of it. -/
theorem highlight_markers_removable (do_hl : Bool) (max_quote : Nat)
    (keywords : List String) (text : String)
    (hb : '[' ∉ text.data ∧ ']' ∉ text.data) :
    ((if do_hl then highlight (normalize_ws text) keywords
        else normalize_ws text).length ≤ max_quote →
      removeMarkers (formatEvidenceText do_hl max_quote keywords text) = normalize_ws text) ∧
    (max_quote < (if do_hl then highlight (normalize_ws text) keywords
        else normalize_ws text).length →
      ∃ p : List Char, (∃ q, p ++ q = (normalize_ws text).data) ∧
        (removeMarkers (formatEvidenceText do_hl max_quote keywords text)).data
          = p ++ ellipsis) := by
  have hfilter : (if do_hl then highlight (normalize_ws text) keywords
      else normalize_ws text).data.filter notMarker = (normalize_ws text).data := by
    cases do_hl
    · simpa using normalize_ws_no_markers hb
    · simp only [if_pos]
      rw [highlight_filter]
      exact normalize_ws_no_markers hb
  constructor
  · intro hle
    have hnt : ¬ max_quote < (if do_hl then highlight (normalize_ws text) keywords
        else normalize_ws text).length := not_lt.mpr hle
    show removeMarkers (if max_quote < (if do_hl then highlight (normalize_ws text) keywords
        else normalize_ws text).length
      then _ else (if do_hl then highlight (normalize_ws text) keywords
        else normalize_ws text)) = normalize_ws text
    rw [if_neg hnt]
    show (⟨(if do_hl then highlight (normalize_ws text) keywords
        else normalize_ws text).data.filter notMarker⟩ : String) = normalize_ws text
    rw [hfilter]
  · intro hlt
    refine ⟨((if do_hl then highlight (normalize_ws text) keywords
        else normalize_ws text).data.take max_quote).filter notMarker,
      ⟨((if do_hl then highlight (normalize_ws text) keywords
        else normalize_ws text).data.drop max_quote).filter notMarker, ?_⟩, ?_⟩
    · rw [← List.filter_append, List.take_append_drop, hfilter]
    · show ((if max_quote < (if do_hl then highlight (normalize_ws text) keywords
          else normalize_ws text).length
        then (⟨(if do_hl then highlight (normalize_ws text) keywords
          else normalize_ws text).data.take max_quote ++ ellipsis⟩ : String)
        else (if do_hl then highlight (normalize_ws text) keywords
          else normalize_ws text)) : String).data.filter notMarker = _
      rw [if_pos hlt]
      show ((if do_hl then highlight (normalize_ws text) keywords
          else normalize_ws text).data.take max_quote ++ ellipsis).filter notMarker = _
      rw [List.filter_append]
      rfl

/-- Witness for C8 at the concrete truncating instance. -/
theorem highlight_markers_removable_witness :
    ((if true then highlight (normalize_ws "spring boot x") ["spring"]
        else normalize_ws "spring boot x").length ≤ 8 →
      removeMarkers (formatEvidenceText true 8 ["spring"] "spring boot x")
        = normalize_ws "spring boot x") ∧
    (8 < (if true then highlight (normalize_ws "spring boot x") ["spring"]
        else normalize_ws "spring boot x").length →
      ∃ p : List Char, (∃ q, p ++ q = (normalize_ws "spring boot x").data) ∧
        (removeMarkers (formatEvidenceText true 8 ["spring"] "spring boot x")).data
          = p ++ ellipsis) :=
  highlight_markers_removable true 8 ["spring"] "spring boot x" (by decide)

theorem finalRows_sorted (wt : Bool) (w : ℚ) (cands k : Nat) (pv : Int)
    (pool : List Chunk) : (finalRows wt w cands k pv pool).Pairwise finalLe := by
  unfold finalRows
  exact List.sorted_insertionSort finalLe _

theorem best_eq_minScore {s : List SRow} {rr : RRow} (h : rr ∈ rankRows s) :
    minScore (vacScores s rr.vacancy_id) = some rr.best := by
  obtain ⟨hs, -, hbest⟩ := mem_rankRows h
  have hmem : rr.score ∈ vacScores s rr.vacancy_id := by
    unfold vacScores
    exact List.mem_map.mpr ⟨rr.toSRow, List.mem_filter.mpr ⟨hs, by simp⟩, rfl⟩
  cases hv : vacScores s rr.vacancy_id with
  | nil => rw [hv] at hmem; cases hmem
  | cons x xs =>
    rw [hbest]
    unfold bestOf
    rw [hv]
    rfl

theorem best_eq_aggScore {s : List SRow} {rr : RRow} (h : rr ∈ rankRows s) :
    rr.best = aggScore s rr.vacancy_id := by
  unfold aggScore
  rw [best_eq_minScore h]
  rfl

theorem bestRecorded_eq {rows : List RRow} {vid : Int} (h : vid ∈ vacOrder rows) :
    ∃ rr ∈ rows, rr.vacancy_id = vid ∧ bestRecorded rows vid = rr.best := by
  have hv : vid ∈ rows.map (fun r => r.vacancy_id) := mem_of_mem_dedupFirst h
  obtain ⟨r0, hr0, hr0v⟩ := List.mem_map.mp hv
  have hsome : (rows.find? (fun r => decide (r.vacancy_id = vid))).isSome := by
    rw [List.find?_isSome]
    exact ⟨r0, hr0, by simpa using hr0v⟩
  obtain ⟨rr, hfind⟩ := Option.isSome_iff_exists.mp hsome
  refine ⟨rr, List.mem_of_find?_eq_some hfind, by simpa using List.find?_some hfind, ?_⟩
  unfold bestRecorded
  rw [hfind]
  rfl

section
attribute [local semireducible] Rat.sub Rat.mul

/-- C4 counterexample: with the hybrid branch active and weight 1, two
documents tie at aggregate score 1/20; document 1 is first seen in the
distance-ascending candidate stream, yet the result lists document 2 first —
the tie is resolved by the position of each document's rank-1 row after
scoring, not by first-seen order of the stream. -/
theorem doc_order_tie_counterexample :
    (retrieve_vacancies
      [{ vacancy_id := 1, chunk_no := 1, text := "a1", dist := mkRat 1 10, kw_sim := 0 },
       { vacancy_id := 1, chunk_no := 2, text := "a2", dist := mkRat 3 10,
         kw_sim := mkRat 1 4 },
       { vacancy_id := 2, chunk_no := 1, text := "b1", dist := mkRat 1 5,
         kw_sim := mkRat 3 20 }]
      true 2 2 10 (mkRat 1 1)).map (fun r => r.vac_order) = Except.ok [2, 1] ∧
    (retrieve_vacancies
      [{ vacancy_id := 1, chunk_no := 1, text := "a1", dist := mkRat 1 10, kw_sim := 0 },
       { vacancy_id := 1, chunk_no := 2, text := "a2", dist := mkRat 3 10,
         kw_sim := mkRat 1 4 },
       { vacancy_id := 2, chunk_no := 1, text := "b1", dist := mkRat 1 5,
         kw_sim := mkRat 3 20 }]
      true 2 2 10 (mkRat 1 1)).map
        (fun r => r.entries.map (fun e => e.best_score)) =
      Except.ok [mkRat 1 20, mkRat 1 20] ∧
    (List.insertionSort (fun a b : Chunk => a.dist ≤ b.dist)
      [{ vacancy_id := 1, chunk_no := 1, text := "a1", dist := mkRat 1 10, kw_sim := 0 },
       { vacancy_id := 1, chunk_no := 2, text := "a2", dist := mkRat 3 10,
         kw_sim := mkRat 1 4 },
       { vacancy_id := 2, chunk_no := 1, text := "b1", dist := mkRat 1 5,
         kw_sim := mkRat 3 20 }]).map (fun c => c.vacancy_id) = [1, 2, 1] := by decide

/-- C4 amended: the returned documents are ordered by aggregate (best
combined) score ascending — every pair of entries in result order satisfies
`best_score[i] ≤ best_score[j]` for i before j; the relative order of
documents sharing an identical aggregate score is an artifact of the sort
and not guaranteed to be first-seen order of the candidate stream. -/
theorem doc_order_sorted (pool : List Chunk) (trgm : Bool)
    (k per_vac candidates : Int) (w : ℚ) (res : RetrieveResult)
    (hok : retrieve_vacancies pool trgm k per_vac candidates w = Except.ok res) :
    res.entries.Pairwise (fun a b => a.best_score ≤ b.best_score) := by
  obtain ⟨-, -, rfl⟩ := retrieve_ok hok
  show (vacEntries (resultRows pool trgm k per_vac candidates w)).Pairwise _
  have hmem : ∀ rr ∈ resultRows pool trgm k per_vac candidates w,
      rr ∈ rankRows (scoredRows (hybridActive trgm w) (effectiveWeight trgm w)
        candidates.toNat pool) := by
    intro rr hrr
    exact mem_rankRows_of_mem_finalRows hrr
  have hsorted : (resultRows pool trgm k per_vac candidates w).Pairwise finalLe :=
    finalRows_sorted _ _ _ _ _ _
  have hb : (resultRows pool trgm k per_vac candidates w).Pairwise
      (fun a b => a.best ≤ b.best) := by
    refine hsorted.imp ?_
    intro a b h
    rcases h with h | ⟨h, -⟩
    · exact le_of_lt h
    · exact le_of_eq h
  have hb2 : (resultRows pool trgm k per_vac candidates w).Pairwise
      (fun a b => aggScore (scoredRows (hybridActive trgm w) (effectiveWeight trgm w)
        candidates.toNat pool) a.vacancy_id ≤
        aggScore (scoredRows (hybridActive trgm w) (effectiveWeight trgm w)
          candidates.toNat pool) b.vacancy_id) := by
    refine hb.imp_of_mem ?_
    intro a b ha hb' hle
    rw [← best_eq_aggScore (hmem a ha), ← best_eq_aggScore (hmem b hb')]
    exact hle
  have hmap : (((resultRows pool trgm k per_vac candidates w).map
      (fun r => r.vacancy_id)).Pairwise
      (fun v1 v2 => aggScore (scoredRows (hybridActive trgm w) (effectiveWeight trgm w)
          candidates.toNat pool) v1 ≤
        aggScore (scoredRows (hybridActive trgm w) (effectiveWeight trgm w)
          candidates.toNat pool) v2)) := List.pairwise_map.mpr hb2
  have hdedup := List.Pairwise.sublist
    (dedupFirst_sublist ((resultRows pool trgm k per_vac candidates w).map
      (fun r => r.vacancy_id))) hmap
  unfold vacEntries
  refine List.pairwise_map.mpr ?_
  refine hdedup.imp_of_mem ?_
  intro v1 v2 h1 h2 hle
  obtain ⟨r1, hr1, hv1, he1⟩ := bestRecorded_eq h1
  obtain ⟨r2, hr2, hv2, he2⟩ := bestRecorded_eq h2
  show bestRecorded _ v1 ≤ bestRecorded _ v2
  rw [he1, he2, best_eq_aggScore (hmem r1 hr1), best_eq_aggScore (hmem r2 hr2), hv1, hv2]
  exact hle

/-- Witness for C4 at the tie-scenario pool. -/
theorem doc_order_sorted_witness :
    ({ vac_order := [2, 1]
       entries :=
         [{ vacancy_id := 2, best_score := mkRat 1 20,
            evidence := [{ chunk_no := 1, text := "b1", dist := mkRat 1 5,
                           kw_sim := mkRat 3 20, score := mkRat 1 20,
                           rank_in_vacancy := 1 }] },
          { vacancy_id := 1, best_score := mkRat 1 20,
            evidence := [{ chunk_no := 2, text := "a2", dist := mkRat 3 10,
                           kw_sim := mkRat 1 4, score := mkRat 1 20,
                           rank_in_vacancy := 1 },
                         { chunk_no := 1, text := "a1", dist := mkRat 1 10,
                           kw_sim := 0, score := mkRat 1 10,
                           rank_in_vacancy := 2 }] }]
       trgm := true, kw_weight_used := mkRat 1 1 } : RetrieveResult).entries.Pairwise
      (fun a b => a.best_score ≤ b.best_score) :=
  doc_order_sorted
    [{ vacancy_id := 1, chunk_no := 1, text := "a1", dist := mkRat 1 10, kw_sim := 0 },
     { vacancy_id := 1, chunk_no := 2, text := "a2", dist := mkRat 3 10,
       kw_sim := mkRat 1 4 },
     { vacancy_id := 2, chunk_no := 1, text := "b1", dist := mkRat 1 5,
       kw_sim := mkRat 3 20 }]
    true 2 2 10 (mkRat 1 1) _ (by decide)

end

theorem keyLt_trans {a b c : SRow} (h1 : keyLt a b = true) (h2 : keyLt b c = true) :
    keyLt a c = true := by
  unfold keyLt at h1 h2 ⊢
  simp only [Bool.or_eq_true, Bool.and_eq_true, decide_eq_true_eq] at h1 h2 ⊢
  rcases h1 with h1 | ⟨h1, h1'⟩ <;> rcases h2 with h2 | ⟨h2, h2'⟩
  · exact Or.inl (h1.trans h2)
  · exact Or.inl (h2 ▸ h1)
  · exact Or.inl (h1 ▸ h2)
  · exact Or.inr ⟨h1.trans h2, h1'.trans h2'⟩

theorem keyLt_irrefl (a : SRow) : keyLt a a = false := by
  unfold keyLt
  simp

theorem rnOf_lt {s : List SRow} {a b : SRow} (ha : a ∈ s)
    (hvac : a.vacancy_id = b.vacancy_id) (hab : keyLt a b = true) :
    rnOf s a < rnOf s b := by
  unfold rnOf
  have hsub : (s.filter (fun y => decide (y.vacancy_id = a.vacancy_id) && keyLt y a)).Sublist
      (s.filter (fun y => decide (y.vacancy_id = b.vacancy_id) && keyLt y b)) := by
    apply List.monotone_filter_right
    intro y hy
    simp only [Bool.and_eq_true, decide_eq_true_eq] at hy ⊢
    exact ⟨hvac ▸ hy.1, keyLt_trans hy.2 hab⟩
  have hmemb : a ∈ s.filter (fun y => decide (y.vacancy_id = b.vacancy_id) && keyLt y b) :=
    List.mem_filter.mpr ⟨ha, by simp [hvac, hab]⟩
  have hnot : a ∉ s.filter (fun y => decide (y.vacancy_id = a.vacancy_id) && keyLt y a) := by
    intro hmem
    have hpa := List.of_mem_filter hmem
    rw [keyLt_irrefl] at hpa
    simp at hpa
  have hlt : (s.filter (fun y => decide (y.vacancy_id = a.vacancy_id) && keyLt y a)).length <
      (s.filter (fun y => decide (y.vacancy_id = b.vacancy_id) && keyLt y b)).length := by
    rcases Nat.lt_or_ge (s.filter (fun y => decide (y.vacancy_id = a.vacancy_id)
        && keyLt y a)).length (s.filter (fun y => decide (y.vacancy_id = b.vacancy_id)
        && keyLt y b)).length with h | h
    · exact h
    · exfalso
      have heq := hsub.eq_of_length (Nat.le_antisymm hsub.length_le h)
      rw [heq] at hnot
      exact hnot hmemb
  omega

theorem score_le_of_rn_le {s : List SRow} {a b : SRow} (hb : b ∈ s)
    (hvac : a.vacancy_id = b.vacancy_id) (hrn : rnOf s a ≤ rnOf s b) :
    a.score ≤ b.score := by
  by_contra hgt
  push_neg at hgt
  have hk : keyLt b a = true := by
    unfold keyLt
    simp [hgt]
  have := rnOf_lt hb hvac.symm hk
  omega

theorem scoredRows_pos_nodup (wt : Bool) (w : ℚ) (cands : Nat) (pool : List Chunk) :
    ((scoredRows wt w cands pool).map (fun r => r.pos)).Nodup := by
  unfold scoredRows
  rw [List.map_map]
  show ((((List.insertionSort (fun a b : Chunk => a.dist ≤ b.dist) pool).take
      cands).enum).map Prod.fst).Nodup
  rw [List.enum_map_fst]
  exact List.nodup_range _

theorem scoredRows_nodup (wt : Bool) (w : ℚ) (cands : Nat) (pool : List Chunk) :
    (scoredRows wt w cands pool).Nodup :=
  List.Nodup.of_map _ (scoredRows_pos_nodup wt w cands pool)

theorem rankRows_nodup {s : List SRow} (hs : s.Nodup) : (rankRows s).Nodup := by
  unfold rankRows
  refine List.Nodup.map_on ?_ hs
  intro x hx y hy he
  simpa using congrArg (fun rr : RRow => rr.toSRow) he

theorem rankRows_toSRow_inj {s : List SRow} {x y : RRow}
    (hx : x ∈ rankRows s) (hy : y ∈ rankRows s) (he : x.toSRow = y.toSRow) : x = y := by
  obtain ⟨x0, hx0, rfl⟩ := List.mem_map.mp hx
  obtain ⟨y0, hy0, rfl⟩ := List.mem_map.mp hy
  have hxy : x0 = y0 := he
  subst hxy
  rfl

theorem keyLt_of_pos_ne {a b : SRow} (hne : a.pos ≠ b.pos) :
    keyLt a b = true ∨ keyLt b a = true := by
  rcases lt_trichotomy a.score b.score with h | h | h
  · left; unfold keyLt; simp [h]
  · rcases Nat.lt_trichotomy a.pos b.pos with h2 | h2 | h2
    · left; unfold keyLt; simp [h, h2]
    · exact absurd h2 hne
    · right; unfold keyLt; simp [h.symm, h2]
  · right; unfold keyLt; simp [h]

theorem rn_inj {s : List SRow} (hpos : ((s.map (fun r => r.pos)).Nodup))
    {a b : SRow} (ha : a ∈ s) (hb : b ∈ s) (hvac : a.vacancy_id = b.vacancy_id)
    (hrn : rnOf s a = rnOf s b) : a = b := by
  by_contra hne
  have hposne : a.pos ≠ b.pos := by
    intro hp
    exact hne (List.inj_on_of_nodup_map hpos ha hb hp)
  rcases keyLt_of_pos_ne hposne with h | h
  · have := rnOf_lt ha hvac h; omega
  · have := rnOf_lt hb hvac.symm h; omega

theorem mem_finalRows_rn_le {wt : Bool} {w : ℚ} {cands k : Nat} {pv : Int}
    {pool : List Chunk} {rr : RRow} (h : rr ∈ finalRows wt w cands k pv pool) :
    (rr.rn : Int) ≤ pv := by
  unfold finalRows at h
  have h' := (List.mem_insertionSort finalLe).mp h
  have hp := List.of_mem_filter h'
  simp only [Bool.and_eq_true, decide_eq_true_eq] at hp
  exact hp.1

theorem finalRows_nodup (wt : Bool) (w : ℚ) (cands k : Nat) (pv : Int)
    (pool : List Chunk) : (finalRows wt w cands k pv pool).Nodup := by
  unfold finalRows
  exact ((List.perm_insertionSort finalLe _).nodup_iff).mpr
    ((rankRows_nodup (scoredRows_nodup wt w cands pool)).filter _)

/-- C5: for every document in a retrieve result (with a non-negative
per-document cap), its evidence fragments are ordered by their own combined
score ascending and number at most `per_doc`, and the document's reported
aggregate score equals the minimum combined score among all of the
document's candidate fragments in the scored pool. -/
theorem evidence_sorted_capped_min (pool : List Chunk) (trgm : Bool)
    (k per_vac candidates : Int) (w : ℚ) (res : RetrieveResult)
    (hpv : 0 ≤ per_vac)
    (hok : retrieve_vacancies pool trgm k per_vac candidates w = Except.ok res)
    (entry : VacEntry) (hentry : entry ∈ res.entries) :
    (entry.evidence.map (fun e => e.score)).Pairwise (· ≤ ·) ∧
    (entry.evidence.length : Int) ≤ per_vac ∧
    minScore (vacScores (scoredRows (hybridActive trgm w) (effectiveWeight trgm w)
      candidates.toNat pool) entry.vacancy_id) = some entry.best_score := by
  obtain ⟨-, -, rfl⟩ := retrieve_ok hok
  obtain ⟨vid, hvid, rfl⟩ := List.mem_map.mp hentry
  set s := scoredRows (hybridActive trgm w) (effectiveWeight trgm w) candidates.toNat pool
    with hsdef
  set rows := resultRows pool trgm k per_vac candidates w with hrowsdef
  have hpos : (s.map (fun r => r.pos)).Nodup :=
    scoredRows_pos_nodup (hybridActive trgm w) (effectiveWeight trgm w) candidates.toNat pool
  have hrowsmem : ∀ rr ∈ rows, rr ∈ rankRows s := fun rr h =>
    mem_rankRows_of_mem_finalRows h
  have hLsub : (rows.filter (fun r => decide (r.vacancy_id = vid))).Sublist rows :=
    List.filter_sublist rows
  have hLmem : ∀ r ∈ rows.filter (fun r => decide (r.vacancy_id = vid)), r ∈ rows :=
    fun r h => hLsub.subset h
  have hLvid : ∀ r ∈ rows.filter (fun r => decide (r.vacancy_id = vid)),
      r.vacancy_id = vid := by
    intro r h
    simpa using List.of_mem_filter h
  have hsorted : rows.Pairwise finalLe := finalRows_sorted _ _ _ _ _ _
  have hscore : (rows.filter (fun r => decide (r.vacancy_id = vid))).Pairwise
      (fun a b => a.score ≤ b.score) := by
    refine (List.Pairwise.sublist hLsub hsorted).imp_of_mem ?_
    intro a b ha hb hle
    have ha' := hLmem a ha
    have hb' := hLmem b hb
    have hav := hLvid a ha
    have hbv := hLvid b hb
    have hamem := mem_rankRows (hrowsmem a ha')
    have hbmem := mem_rankRows (hrowsmem b hb')
    have hbesta : a.best = aggScore s vid := by
      rw [best_eq_aggScore (hrowsmem a ha'), hav]
    have hbestb : b.best = aggScore s vid := by
      rw [best_eq_aggScore (hrowsmem b hb'), hbv]
    have hrnle : a.rn ≤ b.rn := by
      rcases hle with h | ⟨-, h⟩
      · exfalso
        rw [hbesta, hbestb] at h
        exact lt_irrefl _ h
      · exact h
    have hr : rnOf s a.toSRow ≤ rnOf s b.toSRow := by
      rw [← hamem.2.1, ← hbmem.2.1]
      exact hrnle
    refine score_le_of_rn_le hbmem.1 ?_ hr
    show a.vacancy_id = b.vacancy_id
    rw [hav, hbv]
  refine ⟨?_, ?_, ?_⟩
  · show ((evidenceFor rows vid).map (fun e => e.score)).Pairwise (· ≤ ·)
    unfold evidenceFor
    rw [List.map_map]
    exact List.pairwise_map.mpr hscore
  · show ((evidenceFor rows vid).length : Int) ≤ per_vac
    unfold evidenceFor
    rw [List.length_map]
    have hnodupL : (rows.filter (fun r => decide (r.vacancy_id = vid))).Nodup :=
      (finalRows_nodup _ _ _ _ _ _).filter _
    have hrnnodup : ((rows.filter (fun r => decide (r.vacancy_id = vid))).map
        (fun r => r.rn)).Nodup := by
      refine List.Nodup.map_on ?_ hnodupL
      intro x hx y hy he
      have hx' := hLmem x hx
      have hy' := hLmem y hy
      have hxm := mem_rankRows (hrowsmem x hx')
      have hym := mem_rankRows (hrowsmem y hy')
      have hre : rnOf s x.toSRow = rnOf s y.toSRow := by
        rw [← hxm.2.1, ← hym.2.1]
        exact he
      have hveq : x.toSRow.vacancy_id = y.toSRow.vacancy_id := by
        show x.vacancy_id = y.vacancy_id
        rw [hLvid x hx, hLvid y hy]
      exact rankRows_toSRow_inj (hrowsmem x hx') (hrowsmem y hy')
        (rn_inj hpos hxm.1 hym.1 hveq hre)
    have hmemIcc : ∀ n ∈ (rows.filter (fun r => decide (r.vacancy_id = vid))).map
        (fun r => r.rn), n ∈ Finset.Icc 1 per_vac.toNat := by
      intro n hn
      obtain ⟨r, hr, rfl⟩ := List.mem_map.mp hn
      have hr' := hLmem r hr
      have hrle : (r.rn : Int) ≤ per_vac := mem_finalRows_rn_le hr'
      have hrm := mem_rankRows (hrowsmem r hr')
      have h1 : 1 ≤ r.rn := by
        rw [hrm.2.1]
        unfold rnOf
        omega
      rw [Finset.mem_Icc]
      exact ⟨h1, by omega⟩
    have hcard := List.toFinset_card_of_nodup hrnnodup
    have hsubset : ((rows.filter (fun r => decide (r.vacancy_id = vid))).map
        (fun r => r.rn)).toFinset ⊆ Finset.Icc 1 per_vac.toNat := by
      intro n hn
      exact hmemIcc n (List.mem_toFinset.mp hn)
    have hle := Finset.card_le_card hsubset
    rw [hcard] at hle
    rw [Nat.card_Icc] at hle
    have hlen : (rows.filter (fun r => decide (r.vacancy_id = vid))).length
        ≤ per_vac.toNat := by
      rw [← List.length_map (rows.filter (fun r => decide (r.vacancy_id = vid)))
        (fun r => r.rn)]
      omega
    omega
  · show minScore (vacScores s vid) = some (bestRecorded rows vid)
    obtain ⟨rr, hrr, hrv, hbe⟩ := bestRecorded_eq hvid
    rw [hbe, ← hrv]
    exact best_eq_minScore (hrowsmem rr hrr)

section
attribute [local semireducible] Rat.sub Rat.mul

/-- Witness for C5 at the tie-scenario pool: document 1 has two evidence
rows with ascending scores, at most 2 of them, and aggregate 1/20. -/
theorem evidence_sorted_capped_min_witness :
    ((entry5.evidence.map (fun e => e.score)).Pairwise (· ≤ ·)) ∧
    ((entry5.evidence.length : Int) ≤ 2) ∧
    minScore (vacScores (scoredRows (hybridActive true (mkRat 1 1))
      (effectiveWeight true (mkRat 1 1)) (Int.toNat 10) pool5) entry5.vacancy_id)
      = some entry5.best_score :=
  evidence_sorted_capped_min pool5 true 2 2 10 (mkRat 1 1) res5 (by decide) (by decide)
    entry5 (by decide)

end

end HHRag
